import Mathlib

/-!
Shallow embedding of the image-optimization CLI (src/bin/optimize.js).

Relative paths are Lean strings; the Node path functions (dirname, extname,
basename) are modelled on the character lists underlying the strings, and
the scan / selection / path-resolution / batch loop of the script are
translated into pure functions.  I/O effects (directory creation, file
writes) are recorded in an explicit trace, and the failure behaviour of the
filesystem and of the codec is an explicit environment of oracles.
-/

namespace OptimizeImages

/-- Splits a character list on a separator, mirroring String.splitOn for a
single-character separator: the empty list yields one empty component. -/
def splitOnChar (sep : Char) : List Char → List (List Char)
  | [] => [[]]
  | c :: cs =>
    if c = sep then [] :: splitOnChar sep cs
    else
      match splitOnChar sep cs with
      | [] => [[c]]
      | h :: t => (c :: h) :: t

/-- Splits a character list around its last dot: some (before, after) when a
dot occurs, none otherwise.  The part after the last dot contains no dot. -/
def lastDotSplit : List Char → Option (List Char × List Char)
  | [] => none
  | c :: cs =>
    match lastDotSplit cs with
    | some (b, a) => some (c :: b, a)
    | none => if c = '.' then some ([], cs) else none

/-- Extension of a file base name, as Node path.extname computes it on the
final path component: the substring from the last dot, or empty when there
is no dot or the only dot is the leading character. -/
def extnameData (bn : List Char) : List Char :=
  match lastDotSplit bn with
  | none => []
  | some (b, a) => if b = [] then [] else '.' :: a

/-- Base name with the extension of extnameData stripped, as the script
computes path.basename(file, ext) with ext = path.extname(file). -/
def stemData (bn : List Char) : List Char :=
  match lastDotSplit bn with
  | none => bn
  | some (b, _) => if b = [] then bn else b

/-- Components of a relative path, split on the slash separator. -/
def comps (p : String) : List (List Char) :=
  splitOnChar '/' p.data

/-- Final path component (the file base name with extension). -/
def lastComp (p : String) : List Char :=
  (comps p).getLastD []

/-- Joins path components with slash separators, the inverse of the split
on slash. -/
def joinComps : List (List Char) → List Char
  | [] => []
  | [c] => c
  | c :: rest => c ++ '/' :: joinComps rest

/-- Node path.dirname on a relative path: everything before the last slash,
or the dot sentinel for a path with a single component. -/
def dirname (p : String) : String :=
  let cs := comps p
  if cs.length ≤ 1 then "." else String.mk (joinComps cs.dropLast)

/-- Node path.extname of a relative path. -/
def extname (p : String) : String :=
  String.mk (extnameData (lastComp p))

/-- The base name of the path with its extension stripped, matching the
baseName variable of the script. -/
def stem (p : String) : String :=
  String.mk (stemData (lastComp p))

/-- Node path.join of a relative directory and a file name, restricted to
the shapes the script produces: the dot sentinel and the empty directory
normalize away, every other directory is prepended with a slash. -/
def joinRel (d f : String) : String :=
  if d = "." ∨ d = "" then f else d ++ "/" ++ f

/-- Boolean string-prefix test through the underlying character lists. -/
def leadsWith (p s : String) : Bool :=
  p.data.isPrefixOf s.data

/-- The five brace-expanded alternatives of the glob pattern of line 53,
each an extension suffix including its dot. -/
def recognizedExtsData : List (List Char) :=
  ['.' :: "jpg".data, '.' :: "jpeg".data, '.' :: "png".data,
    '.' :: "gif".data, '.' :: "svg".data]

/-- True when a path component is not a dotfile component; the glob walk
with its default options never matches a component beginning with a dot. -/
def notDotComp (c : List Char) : Bool :=
  match c.head? with
  | some ch => ch != '.'
  | none => true

/-- Semantics of matching one relative file path against the glob pattern
of line 53 with default glob options: no component is a dotfile component
and the base name ends in one of the five recognized extensions. -/
def matchesGlob (p : String) : Bool :=
  let cs := comps p
  cs.all notDotComp && recognizedExtsData.any (fun e => e.isSuffixOf (cs.getLastD []))

/-- The scanner of line 53: the walk result filtered by the glob pattern. -/
def scanImages (entries : List String) : List String :=
  entries.filter matchesGlob

/-- Selection mode answered at the first prompt, with the data of the
follow-up checkbox prompt attached. -/
inductive SelMode where
  | all : SelMode
  | folder : List String → SelMode
  | byFile : List String → SelMode
deriving DecidableEq

/-- Selection engine of lines 77 to 109. -/
def selectFiles (imageFiles : List String) (m : SelMode) : List String :=
  match m with
  | .all => imageFiles
  | .folder dirs => imageFiles.filter (fun f => dirs.contains (dirname f))
  | .byFile fs => fs

/-- Output strategy answered at the strategy prompt; the new-folder variant
carries the suffix answered at the suffix prompt. -/
inductive Strategy where
  | overwrite : Strategy
  | newFolder : String → Strategy
deriving DecidableEq

/-- Output directory name of the new-folder branch, lines 197 to 202. -/
def outputDirNameOf (suffix file : String) : String :=
  if dirname file = "." then suffix else dirname file ++ suffix

/-- Output directory of a file under a strategy, lines 194 and 197 to 204. -/
def outDirOf (st : Strategy) (file : String) : String :=
  match st with
  | .overwrite => dirname file
  | .newFolder suffix => outputDirNameOf suffix file

/-- Resolved output path of a file under a strategy, relative to the scan
root, lines 194 and 206 of the script. -/
def resolveOutput (st : Strategy) (file : String) : String :=
  joinRel (outDirOf st file) (stem file ++ ".webp")

/-- Failure oracles for the effectful steps of the loop: whether creating a
given output directory throws, and whether converting a given input
throws inside the codec. -/
structure Env where
  ensureDirFails : String → Bool
  convertFails : String → Bool

/-- Filesystem operations the loop can perform.  Deletion is part of the
operation language of the filesystem library but the script never emits
it. -/
inductive FsOp where
  | ensureDir : String → FsOp
  | writeFile : String → FsOp
  | deleteFile : String → FsOp
deriving DecidableEq

/-- Outcome of the execution loop of lines 156 to 230: whether an exception
escaped the loop (reaching the top-level catch), the two counters, the
inputs handed to the conversion worker in order, and the trace of
filesystem operations. -/
structure RunResult where
  fatal : Bool
  succ : Nat
  fail : Nat
  workerCalls : List String
  trace : List FsOp
deriving DecidableEq

/-- The per-file loop of lines 160 to 228.  For the new-folder strategy the
directory creation of line 205 runs outside the try block of line 211, so
its failure escapes the loop; a codec failure is caught at line 223 and
only increments the failure counter. -/
def runBatch (st : Strategy) (env : Env) : List String → RunResult
  | [] => ⟨false, 0, 0, [], []⟩
  | file :: rest =>
    match st with
    | .newFolder suffix =>
      let odn := outputDirNameOf suffix file
      if env.ensureDirFails odn then
        ⟨true, 0, 0, [], [.ensureDir odn]⟩
      else
        let out := resolveOutput st file
        let r := runBatch st env rest
        if env.convertFails file then
          ⟨r.fatal, r.succ, r.fail + 1, file :: r.workerCalls, .ensureDir odn :: r.trace⟩
        else
          ⟨r.fatal, r.succ + 1, r.fail, file :: r.workerCalls,
            .ensureDir odn :: .writeFile out :: r.trace⟩
    | .overwrite =>
      let out := resolveOutput st file
      let r := runBatch st env rest
      if env.convertFails file then
        ⟨r.fatal, r.succ, r.fail + 1, file :: r.workerCalls, r.trace⟩
      else
        ⟨r.fatal, r.succ + 1, r.fail, file :: r.workerCalls, .writeFile out :: r.trace⟩

/-- Ambient state of one invocation: whether the scan root exists, the walk
result under it, the prompt answers, and the failure oracles. -/
structure World where
  publicDirExists : Bool
  entries : List String
  mode : SelMode
  strategy : Strategy
  confirm : Bool
  env : Env

/-- Observable outcome of one invocation: the process exit status, the
number of interactive prompts issued, and the loop outcome when the loop
ran. -/
structure MainResult where
  exitCode : Nat
  promptsIssued : Nat
  summary : Option RunResult
deriving DecidableEq

/-- Number of interactive prompts issued before and including the
confirmation prompt: mode, the checkbox of the non-all modes, strategy, the
suffix prompt of the new-folder strategy, and the confirmation. -/
def promptsBeforeConfirm (m : SelMode) (st : Strategy) : Nat :=
  1 + (match m with | .all => 0 | _ => 1)
    + 1 + (match st with | .newFolder _ => 1 | .overwrite => 0) + 1

/-- The main function of lines 40 to 239 together with the top-level catch
of lines 241 to 244: missing scan root exits 1 before any prompt, an empty
scan returns normally before any prompt, a declined confirmation exits 0,
and an exception escaping the loop reaches the catch and exits 1. -/
def mainModel (w : World) : MainResult :=
  if w.publicDirExists = false then ⟨1, 0, none⟩
  else
    let imageFiles := scanImages w.entries
    if imageFiles = [] then ⟨0, 0, none⟩
    else
      let selected := selectFiles imageFiles w.mode
      let prompts := promptsBeforeConfirm w.mode w.strategy
      if w.confirm = false then ⟨0, prompts, none⟩
      else
        let r := runBatch w.strategy w.env selected
        ⟨if r.fatal then 1 else 0, prompts, some r⟩

/-- Environment in which every effect succeeds. -/
def envAllOk : Env :=
  ⟨fun _ => false, fun _ => false⟩

/-- Environment in which creating the directory literally named by the
default suffix fails and everything else succeeds. -/
def envDirFail : Env :=
  ⟨fun d => d == "_optimized", fun _ => false⟩

/-- Environment in which converting exactly the input named bad.jpg fails
and every other effect succeeds. -/
def envOneFail : Env :=
  ⟨fun _ => false, fun f => f == "bad.jpg"⟩

theorem splitOnChar_ne_nil (sep : Char) (l : List Char) : splitOnChar sep l ≠ [] := by
  cases l with
  | nil => simp [splitOnChar]
  | cons c cs =>
    simp only [splitOnChar]
    by_cases h : c = sep
    · simp [h]
    · simp only [h, if_false]
      cases hs : splitOnChar sep cs <;> simp

theorem splitOnChar_append (sep : Char) (a b : List Char) :
    splitOnChar sep (a ++ sep :: b) = splitOnChar sep a ++ splitOnChar sep b := by
  induction a with
  | nil => simp [splitOnChar]
  | cons c cs ih =>
    by_cases h : c = sep
    · subst h
      simp [splitOnChar, ih]
    · simp only [List.cons_append, splitOnChar, h, if_false]
      cases hs : splitOnChar sep cs with
      | nil => exact absurd hs (splitOnChar_ne_nil sep cs)
      | cons y t =>
        simp only [List.append_eq]
        rw [ih, hs]
        simp

theorem splitOnChar_of_not_mem (sep : Char) (l : List Char) (h : sep ∉ l) :
    splitOnChar sep l = [l] := by
  induction l with
  | nil => rfl
  | cons c cs ih =>
    have hc : ¬ c = sep := by
      intro e
      exact h (by simp [e])
    have hcs : sep ∉ cs := fun m => h (List.mem_cons_of_mem _ m)
    simp [splitOnChar, hc, ih hcs]

theorem joinComps_cons_cons (c y : List Char) (t : List (List Char)) :
    joinComps (c :: y :: t) = c ++ '/' :: joinComps (y :: t) := by
  rfl

theorem joinComps_splitOnChar (l : List Char) :
    joinComps (splitOnChar '/' l) = l := by
  induction l with
  | nil => rfl
  | cons c cs ih =>
    by_cases h : c = '/'
    · subst h
      cases hs : splitOnChar '/' cs with
      | nil => exact absurd hs (splitOnChar_ne_nil _ cs)
      | cons y t =>
        rw [hs] at ih
        simp [splitOnChar, hs, joinComps_cons_cons, ih]
    · cases hs : splitOnChar '/' cs with
      | nil => exact absurd hs (splitOnChar_ne_nil _ cs)
      | cons y t =>
        rw [hs] at ih
        cases t with
        | nil =>
          simp [splitOnChar, h, hs, joinComps] at ih ⊢
          exact ih
        | cons z t2 =>
          simp [splitOnChar, h, hs, joinComps_cons_cons] at ih ⊢
          exact ih

theorem not_mem_of_mem_splitOnChar (sep : Char) (l : List Char) (x : List Char)
    (hx : x ∈ splitOnChar sep l) : sep ∉ x := by
  induction l generalizing x with
  | nil =>
    have hx2 : x = [] := by simpa [splitOnChar] using hx
    simp [hx2]
  | cons c cs ih =>
    by_cases h : c = sep
    · subst h
      have hx2 : x ∈ [] :: splitOnChar c cs := by simpa [splitOnChar] using hx
      rcases List.mem_cons.mp hx2 with rfl | hx3
      · simp
      · exact ih x hx3
    · cases hs : splitOnChar sep cs with
      | nil => exact absurd hs (splitOnChar_ne_nil sep cs)
      | cons y t =>
        have he : splitOnChar sep (c :: cs) = (c :: y) :: t := by
          simp [splitOnChar, h, hs]
        rw [he] at hx
        rcases List.mem_cons.mp hx with rfl | hx3
        · intro hm
          rcases List.mem_cons.mp hm with e | hm2
          · exact h e.symm
          · exact ih y (by rw [hs]; exact List.mem_cons_self y t) hm2
        · exact ih x (by rw [hs]; exact List.mem_cons_of_mem y hx3)

theorem getLastD_mem {α : Type} (l : List α) (d : α) (h : l ≠ []) :
    l.getLastD d ∈ l := by
  induction l generalizing d with
  | nil => exact absurd rfl h
  | cons c cs ih =>
    rw [List.getLastD_cons]
    cases cs with
    | nil => simp [List.getLastD_nil]
    | cons y t => exact List.mem_cons_of_mem _ (ih c (by simp))

theorem lastDotSplit_of_not_mem (l : List Char) (h : '.' ∉ l) :
    lastDotSplit l = none := by
  induction l with
  | nil => rfl
  | cons c cs ih =>
    have hc : ¬ c = '.' := by
      intro e
      exact h (by simp [e])
    have hcs : '.' ∉ cs := fun m => h (List.mem_cons_of_mem _ m)
    simp [lastDotSplit, ih hcs, hc]

theorem not_mem_of_lastDotSplit_none (l : List Char) (h : lastDotSplit l = none) :
    '.' ∉ l := by
  induction l with
  | nil => simp
  | cons c cs ih =>
    simp only [lastDotSplit] at h
    cases hs : lastDotSplit cs with
    | some p =>
      obtain ⟨b, a⟩ := p
      rw [hs] at h
      simp at h
    | none =>
      rw [hs] at h
      by_cases hc : c = '.'
      · simp [hc] at h
      · intro hm
        rcases List.mem_cons.mp hm with e | hm2
        · exact hc e.symm
        · exact ih hs hm2

theorem lastDotSplit_append (b a : List Char) (h : '.' ∉ a) :
    lastDotSplit (b ++ '.' :: a) = some (b, a) := by
  induction b with
  | nil => simp [lastDotSplit, lastDotSplit_of_not_mem a h]
  | cons c cs ih => simp [lastDotSplit, ih]

theorem lastDotSplit_some (l b a : List Char) (h : lastDotSplit l = some (b, a)) :
    l = b ++ '.' :: a ∧ '.' ∉ a := by
  induction l generalizing b a with
  | nil => simp [lastDotSplit] at h
  | cons c cs ih =>
    simp only [lastDotSplit] at h
    cases hs : lastDotSplit cs with
    | some p =>
      obtain ⟨b2, a2⟩ := p
      rw [hs] at h
      simp only [Option.some.injEq, Prod.mk.injEq] at h
      obtain ⟨hb, ha⟩ := h
      obtain ⟨he, hna⟩ := ih b2 a2 hs
      subst hb
      subst ha
      exact ⟨by rw [he]; rfl, hna⟩
    | none =>
      rw [hs] at h
      by_cases hc : c = '.'
      · subst hc
        rw [if_pos rfl] at h
        injection h with h2
        injection h2 with hb ha
        subst hb
        subst ha
        exact ⟨rfl, not_mem_of_lastDotSplit_none cs hs⟩
      · simp [hc] at h

theorem extnameData_append (b a : List Char) (hb : b ≠ []) (ha : '.' ∉ a) :
    extnameData (b ++ '.' :: a) = '.' :: a := by
  unfold extnameData
  rw [lastDotSplit_append b a ha]
  simp [hb]

theorem stemData_append (b a : List Char) (hb : b ≠ []) (ha : '.' ∉ a) :
    stemData (b ++ '.' :: a) = b := by
  unfold stemData
  rw [lastDotSplit_append b a ha]
  simp [hb]

theorem suffix_ext_iff (bn tail : List Char) (hd : bn.head? ≠ some '.') (ht : '.' ∉ tail) :
    ('.' :: tail).isSuffixOf bn = true ↔ extnameData bn = '.' :: tail := by
  rw [List.isSuffixOf_iff_suffix]
  constructor
  · rintro ⟨pre, hpre⟩
    have hbne : pre ≠ [] := by
      rintro rfl
      rw [List.nil_append] at hpre
      rw [← hpre] at hd
      simp at hd
    rw [← hpre]
    exact extnameData_append pre tail hbne ht
  · intro h
    unfold extnameData at h
    cases hs : lastDotSplit bn with
    | none =>
      rw [hs] at h
      simp at h
    | some p =>
      obtain ⟨b, a⟩ := p
      rw [hs] at h
      have h2 : (if b = [] then ([] : List Char) else '.' :: a) = '.' :: tail := h
      by_cases hb : b = []
      · rw [if_pos hb] at h2
        simp at h2
      · rw [if_neg hb] at h2
        injection h2 with h3 h4
        obtain ⟨hbn, _⟩ := lastDotSplit_some bn b a hs
        exact ⟨b, by rw [hbn, h4]⟩

theorem notDotComp_iff (c : List Char) : notDotComp c = true ↔ c.head? ≠ some '.' := by
  unfold notDotComp
  cases c with
  | nil => simp
  | cons ch t => simp

theorem any_suffix_iff (bn : List Char) (hd : bn.head? ≠ some '.') :
    recognizedExtsData.any (fun e => e.isSuffixOf bn) = true ↔
      extnameData bn ∈ recognizedExtsData := by
  have point : ∀ e ∈ recognizedExtsData, (e.isSuffixOf bn = true ↔ extnameData bn = e) := by
    intro e he
    rcases (by simpa [recognizedExtsData] using he :
        e = '.' :: "jpg".data ∨ e = '.' :: "jpeg".data ∨ e = '.' :: "png".data ∨
          e = '.' :: "gif".data ∨ e = '.' :: "svg".data) with rfl | rfl | rfl | rfl | rfl
    · exact suffix_ext_iff bn "jpg".data hd (by decide)
    · exact suffix_ext_iff bn "jpeg".data hd (by decide)
    · exact suffix_ext_iff bn "png".data hd (by decide)
    · exact suffix_ext_iff bn "gif".data hd (by decide)
    · exact suffix_ext_iff bn "svg".data hd (by decide)
  rw [List.any_eq_true]
  constructor
  · rintro ⟨e, he, hsuf⟩
    exact ((point e he).mp hsuf) ▸ he
  · intro hm
    exact ⟨extnameData bn, hm, (point _ hm).mpr rfl⟩

theorem extname_mem_iff (f : String) :
    extname f ∈ ([".jpg", ".jpeg", ".png", ".gif", ".svg"] : List String) ↔
      extnameData (lastComp f) ∈ recognizedExtsData := by
  simp only [recognizedExtsData, List.mem_cons, List.not_mem_nil, or_false]
  constructor
  · rintro (h | h | h | h | h)
    · exact Or.inl (congrArg String.data h)
    · exact Or.inr (Or.inl (congrArg String.data h))
    · exact Or.inr (Or.inr (Or.inl (congrArg String.data h)))
    · exact Or.inr (Or.inr (Or.inr (Or.inl (congrArg String.data h))))
    · exact Or.inr (Or.inr (Or.inr (Or.inr (congrArg String.data h))))
  · rintro (h | h | h | h | h)
    · exact Or.inl (String.ext h)
    · exact Or.inr (Or.inl (String.ext h))
    · exact Or.inr (Or.inr (Or.inl (String.ext h)))
    · exact Or.inr (Or.inr (Or.inr (Or.inl (String.ext h))))
    · exact Or.inr (Or.inr (Or.inr (Or.inr (String.ext h))))

theorem matchesGlob_iff (f : String) :
    matchesGlob f = true ↔
      (extname f ∈ ([".jpg", ".jpeg", ".png", ".gif", ".svg"] : List String)
        ∧ ∀ c ∈ comps f, c.head? ≠ some '.') := by
  simp only [matchesGlob, Bool.and_eq_true]
  constructor
  · rintro ⟨hall, hany⟩
    have hd : (lastComp f).head? ≠ some '.' :=
      (notDotComp_iff _).mp
        (List.all_eq_true.mp hall _ (getLastD_mem (comps f) [] (splitOnChar_ne_nil '/' f.data)))
    refine ⟨?_, fun c hc => (notDotComp_iff c).mp (List.all_eq_true.mp hall c hc)⟩
    rw [extname_mem_iff]
    exact (any_suffix_iff (lastComp f) hd).mp hany
  · rintro ⟨hex, hdots⟩
    have hd : (lastComp f).head? ≠ some '.' :=
      hdots _ (getLastD_mem (comps f) [] (splitOnChar_ne_nil '/' f.data))
    refine ⟨List.all_eq_true.mpr (fun c hc => (notDotComp_iff c).mpr (hdots c hc)), ?_⟩
    exact (any_suffix_iff (lastComp f) hd).mpr ((extname_mem_iff f).mp hex)

theorem comps_join (d x : String) (hx : '/' ∉ x.data) (hd : ¬(d = "." ∨ d = "")) :
    comps (joinRel d x) = comps d ++ [x.data] := by
  unfold joinRel
  rw [if_neg hd]
  unfold comps
  have hdata : (d ++ "/" ++ x).data = d.data ++ '/' :: x.data := by
    rw [String.data_append, String.data_append, List.append_assoc]
    rfl
  rw [hdata, splitOnChar_append, splitOnChar_of_not_mem '/' x.data hx]

theorem dirname_joinRel (d x : String) (hx : '/' ∉ x.data) :
    dirname (joinRel d x) = if d = "." ∨ d = "" then "." else d := by
  by_cases hd : d = "." ∨ d = ""
  · have hj : joinRel d x = x := by
      unfold joinRel
      rw [if_pos hd]
    rw [if_pos hd, hj]
    simp [dirname, comps, splitOnChar_of_not_mem '/' x.data hx]
  · rw [if_neg hd]
    have hc := comps_join d x hx hd
    have hne : comps d ≠ [] := splitOnChar_ne_nil '/' d.data
    have hpos : 0 < (comps d).length := List.length_pos.mpr hne
    have hlen : ¬((comps (joinRel d x)).length ≤ 1) := by
      rw [hc, List.length_append, List.length_singleton]
      omega
    simp only [dirname, if_neg hlen]
    rw [hc, List.dropLast_concat]
    exact String.ext (joinComps_splitOnChar d.data)

theorem lastComp_joinRel (d x : String) (hx : '/' ∉ x.data) :
    lastComp (joinRel d x) = x.data := by
  by_cases hd : d = "." ∨ d = ""
  · have hj : joinRel d x = x := by
      unfold joinRel
      rw [if_pos hd]
    rw [hj]
    unfold lastComp
    rw [show comps x = [x.data] from splitOnChar_of_not_mem '/' x.data hx]
    rfl
  · unfold lastComp
    rw [comps_join d x hx hd, List.getLastD_concat]

theorem slash_not_mem_lastComp (p : String) : '/' ∉ lastComp p :=
  not_mem_of_mem_splitOnChar '/' p.data (lastComp p)
    (getLastD_mem (comps p) [] (splitOnChar_ne_nil '/' p.data))

theorem stemData_not_mem {ch : Char} (bn : List Char) (h : ch ∉ bn) : ch ∉ stemData bn := by
  unfold stemData
  cases hs : lastDotSplit bn with
  | none => exact h
  | some p =>
    obtain ⟨b, a⟩ := p
    by_cases hb : b = []
    · simpa [hb] using h
    · simp only [hb, if_neg, ite_false]
      obtain ⟨he, _⟩ := lastDotSplit_some bn b a hs
      intro hm
      exact h (by rw [he]; exact List.mem_append_left _ hm)

theorem stem_webp_data (p : String) :
    (stem p ++ ".webp").data = stemData (lastComp p) ++ '.' :: "webp".data := by
  rw [String.data_append]
  rfl

theorem slash_not_mem_stem_webp (p : String) : '/' ∉ (stem p ++ ".webp").data := by
  rw [stem_webp_data]
  intro hm
  rcases List.mem_append.mp hm with h1 | h2
  · exact stemData_not_mem (lastComp p) (slash_not_mem_lastComp p) h1
  · revert h2
    decide

theorem ext_ne_nil_of_mem (x : List Char) (h : x ∈ recognizedExtsData) : x ≠ [] := by
  intro he
  subst he
  revert h
  decide

theorem stemData_ne_nil_of_ext (bn : List Char) (h : extnameData bn ≠ []) :
    stemData bn ≠ [] := by
  unfold extnameData at h
  unfold stemData
  cases hs : lastDotSplit bn with
  | none =>
    rw [hs] at h
    exact absurd rfl h
  | some p =>
    obtain ⟨b, a⟩ := p
    rw [hs] at h
    have h2 : (if b = [] then ([] : List Char) else '.' :: a) ≠ [] := h
    by_cases hb : b = []
    · rw [if_pos hb] at h2
      exact absurd rfl h2
    · show (if b = [] then bn else b) ≠ []
      rw [if_neg hb]
      exact hb

theorem extname_resolveOutput (st : Strategy) (f : String) (h : matchesGlob f = true) :
    extname (resolveOutput st f) = ".webp" := by
  have hslash := slash_not_mem_stem_webp f
  have hmem : extnameData (lastComp f) ∈ recognizedExtsData :=
    (extname_mem_iff f).mp ((matchesGlob_iff f).mp h).1
  have hstem : stemData (lastComp f) ≠ [] :=
    stemData_ne_nil_of_ext _ (ext_ne_nil_of_mem _ hmem)
  unfold resolveOutput extname
  rw [lastComp_joinRel _ _ hslash, stem_webp_data,
    extnameData_append _ _ hstem (by decide)]

theorem runBatch_counts (st : Strategy) (env : Env)
    (h : ∀ d, env.ensureDirFails d = false) (files : List String) :
    (runBatch st env files).fatal = false
    ∧ (runBatch st env files).workerCalls = files
    ∧ (runBatch st env files).succ = (files.filter (fun f => !env.convertFails f)).length
    ∧ (runBatch st env files).fail = (files.filter (fun f => env.convertFails f)).length := by
  induction files with
  | nil => simp [runBatch]
  | cons f rest ih =>
    obtain ⟨h1, h2, h3, h4⟩ := ih
    cases st with
    | overwrite =>
      by_cases hc : env.convertFails f <;>
        simp [runBatch, hc, h1, h2, h3, h4, List.filter_cons]
    | newFolder suffix =>
      by_cases hc : env.convertFails f <;>
        simp [runBatch, hc, h (outputDirNameOf suffix f), h1, h2, h3, h4, List.filter_cons]

theorem runBatch_write_mem (st : Strategy) (env : Env) (files : List String) (p : String)
    (h : FsOp.writeFile p ∈ (runBatch st env files).trace) :
    ∃ f ∈ files, p = resolveOutput st f := by
  induction files with
  | nil => simp [runBatch] at h
  | cons f rest ih =>
    cases st with
    | overwrite =>
      by_cases hc : env.convertFails f
      · simp [runBatch, hc] at h
        obtain ⟨g, hg, he⟩ := ih h
        exact ⟨g, List.mem_cons_of_mem f hg, he⟩
      · simp [runBatch, hc] at h
        rcases h with he | h2
        · exact ⟨f, List.mem_cons_self f rest, he⟩
        · obtain ⟨g, hg, he⟩ := ih h2
          exact ⟨g, List.mem_cons_of_mem f hg, he⟩
    | newFolder suffix =>
      by_cases hd : env.ensureDirFails (outputDirNameOf suffix f)
      · simp [runBatch, hd] at h
      · by_cases hc : env.convertFails f
        · simp [runBatch, hd, hc] at h
          obtain ⟨g, hg, he⟩ := ih h
          exact ⟨g, List.mem_cons_of_mem f hg, he⟩
        · simp [runBatch, hd, hc] at h
          rcases h with he | h2
          · exact ⟨f, List.mem_cons_self f rest, he⟩
          · obtain ⟨g, hg, he⟩ := ih h2
            exact ⟨g, List.mem_cons_of_mem f hg, he⟩

theorem runBatch_no_delete (st : Strategy) (env : Env) (files : List String) (p : String) :
    FsOp.deleteFile p ∉ (runBatch st env files).trace := by
  induction files with
  | nil => simp [runBatch]
  | cons f rest ih =>
    cases st with
    | overwrite =>
      by_cases hc : env.convertFails f <;> simp [runBatch, hc, ih]
    | newFolder suffix =>
      by_cases hd : env.ensureDirFails (outputDirNameOf suffix f)
      · simp [runBatch, hd]
      · by_cases hc : env.convertFails f <;> simp [runBatch, hd, hc, ih]

theorem length_filter_not_add {α : Type} (p : α → Bool) (l : List α) :
    (l.filter (fun a => !p a)).length + (l.filter p).length = l.length := by
  induction l with
  | nil => rfl
  | cons a t ih =>
    by_cases h : p a <;> simp [List.filter_cons, h] <;> omega

theorem append_ne_dot (d s : String) (hd1 : d ≠ ".") (hd2 : d ≠ "") :
    ¬(d ++ s = "." ∨ d ++ s = "") := by
  have hne : d.data ≠ [] := fun he => hd2 (String.ext he)
  rintro (he | he)
  · have h2 : d.data ++ s.data = ['.'] := by
      rw [← String.data_append]
      exact congrArg String.data he
    cases hd : d.data with
    | nil => exact hne hd
    | cons c t =>
      rw [hd, List.cons_append] at h2
      injection h2 with hc ht
      have ht2 := List.append_eq_nil.mp ht
      apply hd1
      apply String.ext
      rw [hd, ht2.1, hc]
  · have h2 : d.data ++ s.data = [] := by
      rw [← String.data_append]
      exact congrArg String.data he
    exact hne (List.append_eq_nil.mp h2).1

theorem append_empty_str (d : String) : d ++ "" = d :=
  String.ext (by rw [String.data_append]; exact List.append_nil d.data)

theorem leadsWith_append_slash (d s : String) (h : leadsWith "/" s = false) :
    leadsWith (d ++ "/") (d ++ s) = false := by
  unfold leadsWith at h ⊢
  cases hx : (d ++ "/").data.isPrefixOf (d ++ s).data with
  | false => rfl
  | true =>
    exfalso
    have hp := List.isPrefixOf_iff_prefix.mp hx
    rw [String.data_append, String.data_append] at hp
    have hp2 : ("/" : String).data <+: s.data := (List.prefix_append_right_inj d.data).mp hp
    have hb2 : ("/" : String).data.isPrefixOf s.data = true := List.isPrefixOf_iff_prefix.mpr hp2
    rw [hb2] at h
    simp at h

/-- C1: the claim states that files with the vector extension .svg are
never passed to the Conversion Worker and are counted neither as a success
nor as a failure.  The code contradicts this (and the README note that SVG
files are not converted): an .svg file matches the scan pattern of line 53,
and the loop of lines 160 to 228 passes it to the conversion worker and
counts its outcome like any other file; no skipped counter exists.  This
theorem evaluates the loop at the failing input, the selected list
consisting of icon.svg alone, with every effect succeeding: the worker is
invoked on icon.svg, the success counter becomes 1, and an output file is
written. -/
theorem c1_svg_reaches_worker :
    matchesGlob "icon.svg" = true
    ∧ (runBatch .overwrite envAllOk ["icon.svg"]).workerCalls = ["icon.svg"]
    ∧ (runBatch .overwrite envAllOk ["icon.svg"]).succ = 1
    ∧ (runBatch .overwrite envAllOk ["icon.svg"]).fail = 0
    ∧ (runBatch .overwrite envAllOk ["icon.svg"]).trace = [FsOp.writeFile "icon.webp"] := by
  decide

/-- C2: under the new-folder strategy with a suffix, a file in the root
sentinel directory resolves to the directory literally named by the suffix,
and a file in directory dir resolves to the sibling directory named dir
concatenated with the suffix, in both cases with the base name and the
.webp extension; in particular images/hero.jpg maps to
images_optimized/hero.webp and root-level logo.png maps to
_optimized/logo.webp, and when the suffix contains no leading slash the
output directory name never lies nested inside dir. -/
theorem c2_newfolder_paths (file suffix : String) :
    resolveOutput (.newFolder "_optimized") "images/hero.jpg" = "images_optimized/hero.webp"
    ∧ resolveOutput (.newFolder "_optimized") "logo.png" = "_optimized/logo.webp"
    ∧ (dirname file = "." → suffix ≠ "" → suffix ≠ "." →
        resolveOutput (.newFolder suffix) file = suffix ++ "/" ++ (stem file ++ ".webp"))
    ∧ (dirname file ≠ "." → dirname file ≠ "" →
        resolveOutput (.newFolder suffix) file
          = (dirname file ++ suffix) ++ "/" ++ (stem file ++ ".webp"))
    ∧ (leadsWith "/" suffix = false → dirname file ≠ "." →
        leadsWith (dirname file ++ "/") (outputDirNameOf suffix file) = false) := by
  refine ⟨by decide, by decide, ?_, ?_, ?_⟩
  · intro h1 h2 h3
    simp only [resolveOutput, outDirOf, outputDirNameOf]
    rw [if_pos h1]
    simp only [joinRel]
    rw [if_neg (by rintro (h | h); exacts [h3 h, h2 h])]
  · intro h1 h2
    simp only [resolveOutput, outDirOf, outputDirNameOf]
    rw [if_neg h1]
    simp only [joinRel]
    rw [if_neg (append_ne_dot (dirname file) suffix h1 h2)]
  · intro h1 h2
    simp only [outputDirNameOf]
    rw [if_neg h2]
    exact leadsWith_append_slash (dirname file) suffix h1

/-- C2 witness: the sibling-directory formula evaluated at the concrete
input images/hero.jpg with the default suffix. -/
theorem c2_newfolder_paths_witness :
    resolveOutput (.newFolder "_optimized") "images/hero.jpg"
      = (dirname "images/hero.jpg" ++ "_optimized") ++ "/"
          ++ (stem "images/hero.jpg" ++ ".webp") :=
  (c2_newfolder_paths "images/hero.jpg" "_optimized").2.2.2.1 (by decide) (by decide)

/-- C3 counterexample: the claim states that a failure to create the
output directory is recorded as a per-file failure and the batch continues.
In the code the directory creation of line 205 runs outside the try block
of line 211, so the exception escapes the loop: with a two-file batch whose
first output directory cannot be created, the run is fatal, the failure
counter stays 0, and the second file is never processed. -/
theorem c3_dirfail_counterexample :
    (runBatch (.newFolder "_optimized") envDirFail ["logo.png", "images/hero.jpg"]).fatal = true
    ∧ (runBatch (.newFolder "_optimized") envDirFail ["logo.png", "images/hero.jpg"]).fail = 0
    ∧ (runBatch (.newFolder "_optimized") envDirFail
        ["logo.png", "images/hero.jpg"]).workerCalls = [] := by
  decide

/-- C3 amended: a failure to create the output directory aborts the whole
run: the exception escapes the per-file try block and the loop, nothing is
recorded in either counter, the conversion worker is never invoked for that
file or any later file, and the top-level handler exits with status 1. -/
theorem c3_dirfail_aborts_run (env : Env) (suffix file : String) (rest : List String)
    (h : env.ensureDirFails (outputDirNameOf suffix file) = true) :
    runBatch (.newFolder suffix) env (file :: rest)
      = ⟨true, 0, 0, [], [FsOp.ensureDir (outputDirNameOf suffix file)]⟩ := by
  simp [runBatch, h]

/-- C3 witness: the aborting behaviour evaluated at the concrete two-file
batch of the counterexample. -/
theorem c3_dirfail_aborts_run_witness :
    runBatch (.newFolder "_optimized") envDirFail ["logo.png", "images/hero.jpg"]
      = ⟨true, 0, 0, [], [FsOp.ensureDir (outputDirNameOf "_optimized" "logo.png")]⟩ :=
  c3_dirfail_aborts_run envDirFail "_optimized" "logo.png" ["images/hero.jpg"] (by decide)

/-- C4: under the overwrite strategy the output of every file lands in the
directory of the input at any nesting depth, and the batch is additive: the
trace of the loop contains no deletion, and every write goes to the
resolved output path of some selected file and never to a selected input
file itself. -/
theorem c4_overwrite_additive (env : Env) (files : List String)
    (hglob : ∀ f ∈ files, matchesGlob f = true) :
    (∀ file : String, dirname file ≠ "" →
        dirname (resolveOutput .overwrite file) = dirname file)
    ∧ (∀ p : String, FsOp.deleteFile p ∉ (runBatch .overwrite env files).trace)
    ∧ (∀ p : String, FsOp.writeFile p ∈ (runBatch .overwrite env files).trace →
        (∃ f ∈ files, p = resolveOutput .overwrite f) ∧ p ∉ files) := by
  refine ⟨?_, fun p => runBatch_no_delete _ env files p, ?_⟩
  · intro file hne
    have hj := dirname_joinRel (dirname file) (stem file ++ ".webp")
      (slash_not_mem_stem_webp file)
    show dirname (joinRel (dirname file) (stem file ++ ".webp")) = dirname file
    rw [hj]
    by_cases h : dirname file = "."
    · rw [if_pos (Or.inl h), h]
    · rw [if_neg (by rintro (h1 | h1); exacts [h h1, hne h1])]
  · intro p hp
    obtain ⟨f, hf, he⟩ := runBatch_write_mem _ env files p hp
    refine ⟨⟨f, hf, he⟩, ?_⟩
    intro hpf
    have h1 : extname p = ".webp" := by
      rw [he]
      exact extname_resolveOutput _ f (hglob f hf)
    have h2 : extname p ∈ ([".jpg", ".jpeg", ".png", ".gif", ".svg"] : List String) :=
      ((matchesGlob_iff p).mp (hglob p hpf)).1
    rw [h1] at h2
    revert h2
    decide

/-- C4 witness: the same-directory property evaluated at a nested concrete
input in a concrete all-successful batch. -/
theorem c4_overwrite_additive_witness :
    dirname (resolveOutput .overwrite "images/hero.jpg") = dirname "images/hero.jpg" :=
  (c4_overwrite_additive envAllOk ["logo.png", "images/hero.jpg"] (by decide)).1
    "images/hero.jpg" (by decide)

/-- C5: the batch loop is fault-isolating: when directory creation always
succeeds and exactly one selected file fails conversion, no exception
escapes the loop, every selected file is still handed to the worker in
order, and the summary reports one fewer success than the total and exactly
one failure. -/
theorem c5_fault_isolation (st : Strategy) (env : Env) (files : List String)
    (hdir : ∀ d, env.ensureDirFails d = false)
    (hone : (files.filter (fun f => env.convertFails f)).length = 1) :
    (runBatch st env files).fatal = false
    ∧ (runBatch st env files).workerCalls = files
    ∧ (runBatch st env files).succ = files.length - 1
    ∧ (runBatch st env files).fail = 1 := by
  obtain ⟨h1, h2, h3, h4⟩ := runBatch_counts st env hdir files
  refine ⟨h1, h2, ?_, by rw [h4, hone]⟩
  rw [h3]
  have hsum := length_filter_not_add (fun f => env.convertFails f) files
  omega

/-- C5 witness: a three-file batch in which only bad.jpg fails yields two
successes and one failure with all three files processed. -/
theorem c5_fault_isolation_witness :
    (runBatch .overwrite envOneFail ["a.jpg", "bad.jpg", "c.png"]).workerCalls
        = ["a.jpg", "bad.jpg", "c.png"]
    ∧ (runBatch .overwrite envOneFail ["a.jpg", "bad.jpg", "c.png"]).succ
        = (["a.jpg", "bad.jpg", "c.png"] : List String).length - 1
    ∧ (runBatch .overwrite envOneFail ["a.jpg", "bad.jpg", "c.png"]).fail = 1 := by
  have h := c5_fault_isolation .overwrite envOneFail ["a.jpg", "bad.jpg", "c.png"]
    (fun d => rfl) (by decide)
  exact ⟨h.2.1, h.2.2.1, h.2.2.2⟩

/-- C6: by-folder selection is exactly a membership filter on containing
directories: a scanned file is selected precisely when its directory
identifier, the dot sentinel for root-level files, belongs to the chosen
set; the selection is a sublist of the scan result, so scan order is
preserved, and the root sentinel of a bare file name is the dot. -/
theorem c6_byfolder_filter (imageFiles dirs : List String) (f : String) :
    (f ∈ selectFiles imageFiles (.folder dirs) ↔ f ∈ imageFiles ∧ dirname f ∈ dirs)
    ∧ (selectFiles imageFiles (.folder dirs)).Sublist imageFiles
    ∧ dirname "logo.png" = "." := by
  refine ⟨?_, List.filter_sublist imageFiles, by decide⟩
  simp only [selectFiles, List.mem_filter]
  constructor
  · rintro ⟨h1, h2⟩
    exact ⟨h1, List.elem_iff.mp h2⟩
  · rintro ⟨h1, h2⟩
    exact ⟨h1, List.elem_iff.mpr h2⟩

/-- C7 counterexample: the claim states the scanner compares extensions
case-insensitively and returns exactly the files whose extension belongs to
the recognized set.  The glob call of line 53 uses the default
case-sensitive matching and the default dotfile exclusion: photo.JPG,
whose extension lowercases to .jpg, and .hidden/x.jpg, whose extension is
exactly .jpg, are both rejected. -/
theorem c7_case_sensitivity_counterexample :
    scanImages ["photo.JPG", ".hidden/x.jpg"] = []
    ∧ String.mk (".JPG".data.map Char.toLower) = ".jpg"
    ∧ extname "photo.JPG" = ".JPG"
    ∧ extname ".hidden/x.jpg" = ".jpg" := by
  decide

/-- C7 amended: the scanner returns exactly the walk entries whose
extension matches one of .jpg, .jpeg, .png, .gif, .svg case-sensitively
and none of whose path components begins with a dot. -/
theorem c7_scanner_exact (entries : List String) (f : String) :
    f ∈ scanImages entries ↔
      f ∈ entries
      ∧ extname f ∈ ([".jpg", ".jpeg", ".png", ".gif", ".svg"] : List String)
      ∧ (∀ c ∈ comps f, c.head? ≠ some '.') := by
  unfold scanImages
  rw [List.mem_filter, matchesGlob_iff f]

/-- C8: the exit status is 1 exactly when the scan root is missing or an
exception escaped the loop into the top-level catch, and 0 otherwise; a
missing root issues no prompts, an empty scan exits 0 with no prompts and
no batch, and declining the confirmation exits 0. -/
theorem c8_exit_codes (w : World) :
    ((mainModel w).exitCode = 1 ↔
      (w.publicDirExists = false
        ∨ ∃ r : RunResult, (mainModel w).summary = some r ∧ r.fatal = true))
    ∧ (w.publicDirExists = false →
        (mainModel w).exitCode = 1 ∧ (mainModel w).promptsIssued = 0)
    ∧ (w.publicDirExists = true → scanImages w.entries = [] →
        (mainModel w).exitCode = 0 ∧ (mainModel w).promptsIssued = 0
          ∧ (mainModel w).summary = none)
    ∧ (w.publicDirExists = true → scanImages w.entries ≠ [] → w.confirm = false →
        (mainModel w).exitCode = 0) := by
  by_cases hp : w.publicDirExists = false
  · simp [mainModel, hp]
  · have hp2 : w.publicDirExists = true := by
      cases h : w.publicDirExists
      exacts [absurd h hp, rfl]
    by_cases hs : scanImages w.entries = []
    · simp [mainModel, hp2, hs]
    · by_cases hc : w.confirm = false
      · simp [mainModel, hp2, hs, hc]
      · have hc2 : w.confirm = true := by
          cases h : w.confirm
          exacts [absurd h hc, rfl]
        by_cases hf :
            (runBatch w.strategy w.env (selectFiles (scanImages w.entries) w.mode)).fatal
        · simp [mainModel, hp2, hs, hc2, hf]
        · simp [mainModel, hp2, hs, hc2, hf]

/-- C8 witness: an existing root with an empty walk exits 0 with no
prompts and no batch summary. -/
theorem c8_exit_codes_witness :
    (mainModel ⟨true, [], .all, .overwrite, true, envAllOk⟩).exitCode = 0
    ∧ (mainModel ⟨true, [], .all, .overwrite, true, envAllOk⟩).promptsIssued = 0
    ∧ (mainModel ⟨true, [], .all, .overwrite, true, envAllOk⟩).summary = none :=
  (c8_exit_codes ⟨true, [], .all, .overwrite, true, envAllOk⟩).2.2.1 rfl rfl

/-- C9: the new-folder strategy with the empty suffix resolves every file
to exactly the path the overwrite strategy resolves it to: the two
strategies are extensionally equal as path mappings. -/
theorem c9_empty_suffix_overwrite (file : String) :
    resolveOutput (.newFolder "") file = resolveOutput .overwrite file := by
  simp only [resolveOutput, outDirOf, outputDirNameOf]
  by_cases h : dirname file = "."
  · rw [if_pos h, h]
    simp [joinRel]
  · rw [if_neg h, append_empty_str]

/-- C10: the output-path mapping is not injective: the distinct selected
files a.jpg and a.png resolve to the same output path under both
strategies, and a batch containing both writes the same output path twice,
the later write landing on the output of the earlier one. -/
theorem c10_output_collision :
    ("a.jpg" : String) ≠ "a.png"
    ∧ resolveOutput .overwrite "a.jpg" = resolveOutput .overwrite "a.png"
    ∧ resolveOutput (.newFolder "_optimized") "a.jpg"
        = resolveOutput (.newFolder "_optimized") "a.png"
    ∧ (runBatch .overwrite envAllOk ["a.jpg", "a.png"]).trace
        = [FsOp.writeFile "a.webp", FsOp.writeFile "a.webp"] := by
  decide

end OptimizeImages
